import Mathlib

/-!
Shallow embedding of the closed-form holonomic PTG
(src/libs/nav/src/tpspace/CPTG_Holo_Blend.cpp) over the real numbers.

Machine doubles are modelled as real numbers; the NaN/finiteness guards of the
C++ code (`tx_solve==tx_solve`, `mrpt::math::isFinite`) are identically true in
this model and are therefore dropped.  `ASSERT_` failures (C++ exceptions) are
modelled as explicit failure values (`Except.error` / `Option.none`).

The base-class collaborators (`index2alpha`, `refDistance`,
`m_alphaValuesCount`) are out of scope per the spec and are carried as abstract
fields of the configuration record.
-/

namespace HoloBlend

noncomputable section

/-- Sampling time quantum, `PATH_TIME_STEP = 10e-3` in the source. -/
def PATH_TIME_STEP : ℝ := 10e-3

/-- Shared degeneracy tolerance, `eps = 1e-5` in the source. -/
def eps : ℝ := 1e-5

/-- Model of `mrpt::math::TTwist2D`: local-frame velocity (vx, vy, omega). -/
structure TTwist2D where
  vx : ℝ
  vy : ℝ
  omega : ℝ

/-- State of a `CPTG_Holo_Blend` object together with the base-class data it
reads (`m_alphaValuesCount`, `index2alpha`, `refDistance`). -/
structure HoloPTG where
  T_ramp : ℝ
  V_MAX : ℝ
  W_MAX : ℝ
  turningRadiusReference : ℝ
  refDistance : ℝ
  m_alphaValuesCount : ℕ
  index2alpha : ℕ → ℝ
  curVelLocal : TTwist2D

/-- Source: `calc_trans_distance_t_below_Tramp_abc`.  Definite integral on
`[0,t]` of `sqrt(a*t^2+b*t+c)` via the closed-form antiderivative. -/
def calc_trans_distance_t_below_Tramp_abc (t a b c : ℝ) : ℝ :=
  let int_t := (t*(1/2) + (b*(1/4))/a) * Real.sqrt (c + b*t + a*(t*t)) +
    1/(a ^ ((3:ℝ)/2)) *
      Real.log (1/Real.sqrt a * (b*(1/2) + a*t) + Real.sqrt (c + b*t + a*(t*t))) *
      (a*c - (b*b)*(1/4)) * (1/2)
  let int_t0 := (b*Real.sqrt c*(1/4))/a +
    1/(a ^ ((3:ℝ)/2)) *
      Real.log (1/Real.sqrt a * (b + Real.sqrt a * Real.sqrt c * 2) * (1/2)) *
      (a*c - (b*b)*(1/4)) * (1/2)
  int_t - int_t0

/-- Source: `calc_trans_distance_t_below_Tramp`.  Travel distance for
`t <= T_ramp`, with the two numerically degenerate regimes. -/
def calc_trans_distance_t_below_Tramp (k2 k4 vxi vyi t : ℝ) : ℝ :=
  let c := vxi*vxi + vyi*vyi
  if eps < |k2| ∨ eps < |k4| then
    let a := (k2*k2)*4 + (k4*k4)*4
    let b := k2*vxi*4 + k4*vyi*4
    if |b| < eps ∧ |c| < eps then
      Real.sqrt a * (t*t) * 0.5
    else
      calc_trans_distance_t_below_Tramp_abc t a b c
  else
    Real.sqrt c * t

/-- Source: `CPTG_Holo_Blend::updateCurrentRobotVel`. -/
def updateCurrentRobotVel (P : HoloPTG) (v : TTwist2D) : HoloPTG :=
  ⟨P.T_ramp, P.V_MAX, P.W_MAX, P.turningRadiusReference, P.refDistance,
   P.m_alphaValuesCount, P.index2alpha, v⟩

/-- Target x-velocity for direction `k`: `vxf = V_MAX*cos(dir)`. -/
def pathVxf (P : HoloPTG) (k : ℕ) : ℝ := P.V_MAX * Real.cos (P.index2alpha k)

/-- Target y-velocity for direction `k`: `vyf = V_MAX*sin(dir)`. -/
def pathVyf (P : HoloPTG) (k : ℕ) : ℝ := P.V_MAX * Real.sin (P.index2alpha k)

/-- Ramp coefficient `k2 = (vxf-vxi)*TR2_` with `TR2_ = 1/(2*T_ramp)`. -/
def pathK2 (P : HoloPTG) (k : ℕ) : ℝ :=
  (pathVxf P k - P.curVelLocal.vx) * (1/(2*P.T_ramp))

/-- Ramp coefficient `k4 = (vyf-vyi)*TR2_`. -/
def pathK4 (P : HoloPTG) (k : ℕ) : ℝ :=
  (pathVyf P k - P.curVelLocal.vy) * (1/(2*P.T_ramp))

/-- Quadratic coefficient `a = 4*k2^2 + 4*k4^2` of the squared-speed polynomial. -/
def pathA (P : HoloPTG) (k : ℕ) : ℝ :=
  (pathK2 P k * pathK2 P k)*4 + (pathK4 P k * pathK4 P k)*4

/-- Linear coefficient `b = 4*(k2*vxi + k4*vyi)`. -/
def pathB (P : HoloPTG) (k : ℕ) : ℝ :=
  pathK2 P k * P.curVelLocal.vx * 4 + pathK4 P k * P.curVelLocal.vy * 4

/-- Constant coefficient `c = vxi^2 + vyi^2`. -/
def pathC (P : HoloPTG) : ℝ :=
  P.curVelLocal.vx*P.curVelLocal.vx + P.curVelLocal.vy*P.curVelLocal.vy

/-- Source: body of `CPTG_Holo_Blend::getPathPose` at continuous time `t`.
Returns `(x, y, phi)`. -/
def getPathPose_t (P : HoloPTG) (k : ℕ) (t : ℝ) : ℝ × ℝ × ℝ :=
  let dir := P.index2alpha k
  let TR2 := 1/(2*P.T_ramp)
  let vxf := P.V_MAX * Real.cos dir
  let vyf := P.V_MAX * Real.sin dir
  let vxi := P.curVelLocal.vx
  let vyi := P.curVelLocal.vy
  let x := if t < P.T_ramp then vxi*t + t*t*TR2*(vxf - vxi)
           else P.T_ramp*0.5*(vxi + vxf) + (t - P.T_ramp)*vxf
  let y := if t < P.T_ramp then vyi*t + t*t*TR2*(vyf - vyi)
           else P.T_ramp*0.5*(vyi + vyf) + (t - P.T_ramp)*vyf
  let T_rot := |dir| / P.W_MAX
  let phi := if t < T_rot then t*dir/T_rot else dir
  (x, y, phi)

/-- Source: `CPTG_Holo_Blend::getPathPose` with `t = PATH_TIME_STEP*step`. -/
def getPathPose (P : HoloPTG) (k : ℕ) (step : ℕ) : ℝ × ℝ × ℝ :=
  getPathPose_t P k (PATH_TIME_STEP * step)

/-- Source: body of `CPTG_Holo_Blend::getPathDist` at continuous time `t`. -/
def getPathDist_t (P : HoloPTG) (k : ℕ) (t : ℝ) : ℝ :=
  let vxi := P.curVelLocal.vx
  let vyi := P.curVelLocal.vy
  if t < P.T_ramp then
    calc_trans_distance_t_below_Tramp (pathK2 P k) (pathK4 P k) vxi vyi t
  else
    (t - P.T_ramp) * P.V_MAX +
      calc_trans_distance_t_below_Tramp (pathK2 P k) (pathK4 P k) vxi vyi P.T_ramp

/-- Source: `CPTG_Holo_Blend::getPathDist` with `t = PATH_TIME_STEP*step`. -/
def getPathDist (P : HoloPTG) (k : ℕ) (step : ℕ) : ℝ :=
  getPathDist_t P k (PATH_TIME_STEP * step)

/-- Travel distance accumulated at the end of the ramp
(`dist_trans_T_ramp` in `getPathStepForDist`). -/
def dist_trans_T_ramp (P : HoloPTG) (k : ℕ) : ℝ :=
  calc_trans_distance_t_below_Tramp (pathK2 P k) (pathK4 P k)
    P.curVelLocal.vx P.curVelLocal.vy P.T_ramp

/-- The bounded Newton loop of `getPathStepForDist` (at most `fuel` updates,
early exit at residual `< 1e-3`, `none` models the `ASSERT_` on a vanishing
derivative). -/
def newtonIter (a b c dist : ℝ) : ℕ → ℝ → Option ℝ
  | 0, t => some t
  | n+1, t =>
    let err := calc_trans_distance_t_below_Tramp_abc t a b c - dist
    if |err| < 1e-3 then some t
    else
      let diff := Real.sqrt (a*t*t + b*t + c)
      if 1e-14 < |diff| then newtonIter a b c dist n (t - err/diff)
      else none

/-- Source: `CPTG_Holo_Blend::getPathStepForDist`, split at the solved time
`t_solved` (before quantization).  `none` models `return false` and the
Newton-derivative `ASSERT_`. -/
def getPathStepForDist_t (P : HoloPTG) (k : ℕ) (dist : ℝ) : Option ℝ :=
  let t_solved : Option ℝ :=
    if dist ≥ dist_trans_T_ramp P k then
      some (P.T_ramp + (dist - dist_trans_T_ramp P k)/P.V_MAX)
    else
      if |pathK2 P k| < eps ∧ |pathK4 P k| < eps then
        some (dist / P.V_MAX)
      else
        if |pathB P k| < eps ∧ |pathC P| < eps then
          some (Real.sqrt 2 * (1/(pathA P k ^ ((1:ℝ)/4))) * Real.sqrt dist)
        else
          newtonIter (pathA P k) (pathB P k) (pathC P) dist 10 (P.T_ramp*0.6)
  match t_solved with
  | some t => if 0 ≤ t then some t else none
  | none => none

/-- Source: `CPTG_Holo_Blend::getPathStepForDist` (quantized step).  The
solved time is rounded by `mrpt::utils::round` (an `int`) and assigned to the
`uint16_t` out-parameter `out_step`, which narrows the value modulo `2^16`. -/
def getPathStepForDist (P : HoloPTG) (k : ℕ) (dist : ℝ) : Option ℤ :=
  (getPathStepForDist_t P k dist).map
    (fun t => round (t / PATH_TIME_STEP) % 2^16)

/-- Position tolerance `eps_distance` of `inverseMap_WS2TP` (line 168). -/
def eps_distance (P : HoloPTG) (x y : ℝ) : ℝ :=
  2.1 * ((2*Real.pi/P.m_alphaValuesCount) * Real.sqrt (x*x + y*y))

/-- Time tolerance `TIME_MISMATCH_TOLERANCE` of `inverseMap_WS2TP` (line 167). -/
def TIME_MISMATCH_TOLERANCE (P : HoloPTG) (x y : ℝ) : ℝ :=
  2.0 * ((2*Real.pi/P.m_alphaValuesCount) * Real.sqrt (x*x + y*y)) / P.V_MAX

/-- Per-axis solve of `w = vif*t + k*t^2` for `t < T_ramp` (the x-axis block of
`inverseMap_WS2TP`, lines 189-211; the y-axis block is the same code with
renamed variables).  Result `none` models `continue` on a negative
discriminant; otherwise the pair is `(t_any, t_solve)`. -/
def axisSolveBelow (Tr vif vff w epsd : ℝ) : Option (Bool × ℝ) :=
  if |vff - vif| < eps then
    if |vif| < eps then
      if |w| < epsd then some (true, 0) else some (false, -1)
    else
      some (false, w / vif)
  else
    let discr := (vff*w*2 - vif*w*2 + Tr*(vif*vif))/Tr
    if discr < 0 then none
    else
      let sq := Real.sqrt discr
      let t0 := -(Tr*(vif + sq))/(vff - vif)
      let t1 := -(Tr*(vif - sq))/(vff - vif)
      let ts := if 0 < t0 then t0 else t1
      if 0 ≤ ts ∧ ts ≤ Tr then some (false, ts) else some (false, -1)

/-- Per-axis solve for `t > T_ramp` (lines 245-263).  `p` is the pair carried
over from the below-ramp attempt; the code keeps the old `t_any` flag when it
only overwrites `t_solve`, and keeps the old `t_solve` when it only raises
`t_any`. -/
def axisSolveAbove (Tr vif vff w epsd : ℝ) (p : Bool × ℝ) : Bool × ℝ :=
  if |vff| < eps then
    let finalw := vif * Tr + Tr*Tr*(1/(2*Tr))*(vff - vif)
    if |w - finalw| < epsd then (true, p.2) else (p.1, -1)
  else
    (p.1, (w - Tr*(vff + vif)*0.5)/vff)

/-- The reconciled solution time `t_solve` of one `inverseMap_WS2TP` scan
iteration for direction `k` (lines 176-284 of the source), or `none` when the
direction is rejected (`continue`). -/
def candT (P : HoloPTG) (x y : ℝ) (k : ℕ) : Option ℝ :=
  let Tr := P.T_ramp
  let vxi := P.curVelLocal.vx
  let vyi := P.curVelLocal.vy
  let vxf := pathVxf P k
  let vyf := pathVyf P k
  let epsd := eps_distance P x y
  match axisSolveBelow Tr vxi vxf x epsd, axisSolveBelow Tr vyi vyf y epsd with
  | none, _ => none
  | _, none => none
  | some px, some py =>
    let good := (px.1 ∨ (0 ≤ px.2 ∧ px.2 ≤ Tr)) ∧ (py.1 ∨ (0 ≤ py.2 ∧ py.2 ≤ Tr))
    let qx := if good then px else axisSolveAbove Tr vxi vxf x epsd px
    let qy := if good then py else axisSolveAbove Tr vyi vyf y epsd py
    if ¬qx.1 ∧ ¬qy.1 then
      if TIME_MISMATCH_TOLERANCE P x y < |qx.2 - qy.2| then none else some qx.2
    else if qx.1 ∧ qy.1 then some (Real.sqrt (x*x + y*y) / P.V_MAX)
    else if ¬qx.1 ∧ qy.1 then some qx.2
    else some qy.2

/-- One iteration of the `inverseMap_WS2TP` direction scan: the travelled
distance `dist_trans` of direction `k`s consistent solution time (the ramp-
aware distance formula is the same expression as `getPathDist_t`), or `none`
when the direction is rejected or its time is negative (lines 286-299). -/
def candDist (P : HoloPTG) (x y : ℝ) (k : ℕ) : Option ℝ :=
  match candT P x y k with
  | none => none
  | some t => if 0 ≤ t then some (getPathDist_t P k t) else none

/-- Running minimum of the direction scan after processing directions
`0, 1, ..., n-1` in increasing order: the best `(found_k, found_min_dist)`.
A new candidate replaces the best one only on a strict improvement
(`dist_trans < found_min_dist`, line 294). -/
def scanBestAux (P : HoloPTG) (x y : ℝ) : ℕ → Option (ℕ × ℝ)
  | 0 => none
  | n+1 =>
    match candDist P x y n, scanBestAux P x y n with
    | none, acc => acc
    | some dm, none => some (n, dm)
    | some dm, some best => if dm < best.2 then some (n, dm) else some best

/-- The full direction scan over `k = 0, ..., m_alphaValuesCount - 1`. -/
def scanBest (P : HoloPTG) (x y : ℝ) : Option (ℕ × ℝ) :=
  scanBestAux P x y P.m_alphaValuesCount

/-- Source: `CPTG_Holo_Blend::inverseMap_WS2TP`.  `Except.error ()` models the
entry `ASSERT_(x!=0 || y!=0)`; `Except.ok none` is the `return false` path and
`Except.ok (some (k, d))` the solution, `d = found_min_dist / refDistance`. -/
def inverseMap_WS2TP (P : HoloPTG) (x y : ℝ) : Except Unit (Option (ℕ × ℝ)) :=
  if x ≠ 0 ∨ y ≠ 0 then
    Except.ok ((scanBest P x y).map (fun b => (b.1, b.2 / P.refDistance)))
  else
    Except.error ()

/-- Source: `CPTG_Holo_Blend::PTG_IsIntoDomain` — forwards the boolean result
of `inverseMap_WS2TP` (and propagates its assertion failure). -/
def PTG_IsIntoDomain (P : HoloPTG) (x y : ℝ) : Except Unit Bool :=
  (inverseMap_WS2TP P x y).map Option.isSome

/-- Source: `CPTG_Holo_Blend::directionToMotionCommand`:
`[V_MAX, dir, T_ramp, W_MAX]`. -/
def directionToMotionCommand (P : HoloPTG) (k : ℕ) : ℝ × ℝ × ℝ × ℝ :=
  (P.V_MAX, P.index2alpha k, P.T_ramp, P.W_MAX)

/-- Concrete configuration used to exercise the inverse mapper:
`T_ramp = 1`, `V_MAX = 1`, `W_MAX = 1`, one direction at angle 0,
current velocity `(0, 0)`, `refDistance = 1/10`. -/
def cfgCE2 : HoloPTG :=
  ⟨1, 1, 1, 3/10, 1/10, 1, fun _ => 0, ⟨0, 0, 0⟩⟩

/-! ## The closed-form antiderivative: derivative, monotonicity, value at 0

For the coefficients produced by the ramp model the discriminant of the
squared-speed polynomial `a*t^2 + b*t + c` is never positive
(`a*c - b^2/4 = 4*(k2*vyi - k4*vxi)^2 >= 0`), so only the two cases
`a*c - b^2/4 > 0` and `= 0` occur. -/

lemma rpow32 {a : ℝ} (ha : 0 < a) : a ^ ((3:ℝ)/2) = a * Real.sqrt a := by
  rw [show (3:ℝ)/2 = 1 + 1/2 by norm_num, Real.rpow_add ha, Real.rpow_one,
    ← Real.sqrt_eq_rpow]

/-- The closed-form antiderivative differentiates back to the integrand
`sqrt(a*t^2+b*t+c)` when the discriminant is negative. -/
lemma calc_abc_hasDerivAt {a b c : ℝ} (ha : 0 < a) (hD : 0 < a*c - b*b*(1/4))
    (x : ℝ) :
    HasDerivAt (fun t => calc_trans_distance_t_below_Tramp_abc t a b c)
      (Real.sqrt (c + b*x + a*(x*x))) x := by
  have hqpos : 0 < c + b*x + a*(x*x) := by nlinarith [sq_nonneg (a*x + b*(1/2))]
  set s := Real.sqrt (c + b*x + a*(x*x)) with hs
  have hspos : 0 < s := Real.sqrt_pos.2 hqpos
  have hsq : s*s = c + b*x + a*(x*x) := Real.mul_self_sqrt hqpos.le
  set u := Real.sqrt a with hu
  have hupos : 0 < u := Real.sqrt_pos.2 ha
  have husq : u*u = a := Real.mul_self_sqrt ha.le
  have hus : 0 < (b*(1/2) + a*x) + u*s := by
    nlinarith [mul_pos hupos hspos, sq_nonneg (b*(1/2) + a*x + u*s)]
  have hLpos : 0 < 1/u*(b*(1/2) + a*x) + s := by
    have h4 : 0 < ((b*(1/2) + a*x) + u*s)/u := div_pos hus hupos
    have h5 : ((b*(1/2) + a*x) + u*s)/u = 1/u*(b*(1/2) + a*x) + s := by
      field_simp
      ring
    linarith [h5 ▸ h4]
  have hq : HasDerivAt (fun t => c + b*t + a*(t*t)) (b + a*(x + x)) x := by
    have h1 : HasDerivAt (fun t : ℝ => t) 1 x := hasDerivAt_id x
    have h5 := ((hasDerivAt_const x c).add (h1.const_mul b)).add
      ((h1.mul h1).const_mul a)
    convert h5 using 1
    ring
  have hS : HasDerivAt (fun t => Real.sqrt (c + b*t + a*(t*t)))
      ((b + a*(x+x))/(2*s)) x := hq.sqrt (ne_of_gt hqpos)
  have hA : HasDerivAt (fun t : ℝ => t*(1/2) + (b*(1/4))/a) (1/2) x := by
    have h2 := ((hasDerivAt_id x).mul_const (1/2 : ℝ)).add_const ((b*(1/4))/a)
    convert h2 using 1
    ring
  have hAS := hA.mul hS
  have hinner : HasDerivAt (fun t => 1/u*(b*(1/2) + a*t)) (1/u*(a*1)) x :=
    (((hasDerivAt_id x).const_mul a).const_add (b*(1/2))).const_mul (1/u)
  have hL := hinner.add hS
  have hlog := hL.log (ne_of_gt hLpos)
  have hlogterm := ((hlog.const_mul (1/(a ^ ((3:ℝ)/2)))).mul_const
    (a*c - (b*b)*(1/4))).mul_const (1/2)
  have hfull := (hAS.add hlogterm).sub_const
    ((b*Real.sqrt c*(1/4))/a +
      1/(a ^ ((3:ℝ)/2)) *
        Real.log (1/Real.sqrt a * (b + Real.sqrt a * Real.sqrt c * 2) * (1/2)) *
        (a*c - (b*b)*(1/4)) * (1/2))
  have hshape : (fun t => calc_trans_distance_t_below_Tramp_abc t a b c) = fun t =>
      (t*(1/2) + (b*(1/4))/a) * Real.sqrt (c + b*t + a*(t*t)) +
        1/(a ^ ((3:ℝ)/2)) *
          Real.log (1/u * (b*(1/2) + a*t) + Real.sqrt (c + b*t + a*(t*t))) *
          (a*c - (b*b)*(1/4)) * (1/2) -
      ((b*Real.sqrt c*(1/4))/a +
        1/(a ^ ((3:ℝ)/2)) *
          Real.log (1/Real.sqrt a * (b + Real.sqrt a * Real.sqrt c * 2) * (1/2)) *
          (a*c - (b*b)*(1/4)) * (1/2)) := rfl
  rw [hshape]
  convert hfull using 1
  have hndiv : 1/u*(a*1) = u := by
    field_simp
    linear_combination -(1 : ℝ) * husq
  have hterm : (1/u*(a*1) + (b + a*(x+x))/(2*s)) / (1/u*(b*(1/2)+a*x) + s) =
      u/s := by
    rw [div_eq_div_iff (ne_of_gt hLpos) (ne_of_gt hspos), hndiv]
    field_simp
    ring
  rw [hterm, rpow32 ha, ← hu]
  field_simp
  rw [← hs]
  linear_combination (128*a^2*u*s) * hsq

/-- Strict monotonicity in the negative-discriminant regime. -/
lemma calc_abc_strictMono {a b c : ℝ} (ha : 0 < a) (hD : 0 < a*c - b*b*(1/4)) :
    StrictMono (fun t => calc_trans_distance_t_below_Tramp_abc t a b c) := by
  refine strictMono_of_hasDerivAt_pos
    (fun x => calc_abc_hasDerivAt ha hD x) (fun x => ?_)
  apply Real.sqrt_pos.2
  nlinarith [sq_nonneg (a*x + b*(1/2))]

lemma mul_self_abs_strictMono : StrictMono (fun w : ℝ => w * |w|) := by
  intro p q hpq
  show p * |p| < q * |q|
  rcases le_or_lt 0 p with hp | hp
  · rw [abs_of_nonneg hp, abs_of_nonneg (hp.trans hpq.le)]
    nlinarith
  · rcases le_or_lt 0 q with hq | hq
    · rw [abs_of_neg hp, abs_of_nonneg hq]
      nlinarith
    · rw [abs_of_neg hp, abs_of_neg hq]
      nlinarith

/-- Strict monotonicity in the zero-discriminant regime: the log coefficient
vanishes and the remaining term is `sqrt(a)/2 * w*|w|` in `w = t + b/(2a)`. -/
lemma calc_abc_strictMono_disc0 {a b c : ℝ} (ha : 0 < a)
    (hD : a*c - b*b*(1/4) = 0) :
    StrictMono (fun t => calc_trans_distance_t_below_Tramp_abc t a b c) := by
  have hane : a ≠ 0 := ne_of_gt ha
  have key : ∀ t : ℝ, calc_trans_distance_t_below_Tramp_abc t a b c =
      Real.sqrt a * ((t + b*(1/(2*a))) * |t + b*(1/(2*a))|) * (1/2) -
        (b*Real.sqrt c*(1/4))/a := by
    intro t
    show (t*(1/2) + (b*(1/4))/a) * Real.sqrt (c + b*t + a*(t*t)) +
      1/(a ^ ((3:ℝ)/2)) *
        Real.log (1/Real.sqrt a * (b*(1/2) + a*t) + Real.sqrt (c + b*t + a*(t*t))) *
        (a*c - (b*b)*(1/4)) * (1/2) -
      ((b*Real.sqrt c*(1/4))/a +
        1/(a ^ ((3:ℝ)/2)) *
          Real.log (1/Real.sqrt a * (b + Real.sqrt a * Real.sqrt c * 2) * (1/2)) *
          (a*c - (b*b)*(1/4)) * (1/2)) = _
    rw [hD]
    have hc4 : c*(4*a) = b*b := by linear_combination (4:ℝ)*hD
    have hc : c + b*t + a*(t*t) =
        a * ((t + b*(1/(2*a))) * (t + b*(1/(2*a)))) := by
      field_simp
      linear_combination a * hc4
    rw [hc, Real.sqrt_mul ha.le, Real.sqrt_mul_self_eq_abs]
    have hA : t*(1/2) + (b*(1/4))/a = (t + b*(1/(2*a)))*(1/2) := by
      field_simp
      ring
    rw [hA]
    rcases abs_cases (t + b*(1/(2*a))) with ⟨he, _⟩ | ⟨he, _⟩ <;> rw [he] <;> ring
  intro p q hpq
  have h1 := mul_self_abs_strictMono
    (show p + b*(1/(2*a)) < q + b*(1/(2*a)) by linarith)
  have hsa : 0 < Real.sqrt a := Real.sqrt_pos.2 ha
  calc calc_trans_distance_t_below_Tramp_abc p a b c
      = Real.sqrt a * ((p + b*(1/(2*a))) * |p + b*(1/(2*a))|) * (1/2) -
        (b*Real.sqrt c*(1/4))/a := key p
    _ < Real.sqrt a * ((q + b*(1/(2*a))) * |q + b*(1/(2*a))|) * (1/2) -
        (b*Real.sqrt c*(1/4))/a := by nlinarith
    _ = calc_trans_distance_t_below_Tramp_abc q a b c := (key q).symm

/-- The definite integral vanishes at `t = 0`. -/
lemma calc_abc_zero {a b c : ℝ} (ha : 0 < a) :
    calc_trans_distance_t_below_Tramp_abc 0 a b c = 0 := by
  have hu : Real.sqrt a ≠ 0 := ne_of_gt (Real.sqrt_pos.2 ha)
  have harg : 1/Real.sqrt a * (b*(1/2) + a*0) + Real.sqrt (c + b*0 + a*(0*0)) =
      1/Real.sqrt a * (b + Real.sqrt a * Real.sqrt c * 2) * (1/2) := by
    rw [show c + b*0 + a*(0*0) = c by ring]
    field_simp
    ring
  show (0*(1/2) + (b*(1/4))/a) * Real.sqrt (c + b*0 + a*(0*0)) +
    1/(a ^ ((3:ℝ)/2)) *
      Real.log (1/Real.sqrt a * (b*(1/2) + a*0) + Real.sqrt (c + b*0 + a*(0*0))) *
      (a*c - (b*b)*(1/4)) * (1/2) -
    ((b*Real.sqrt c*(1/4))/a +
      1/(a ^ ((3:ℝ)/2)) *
        Real.log (1/Real.sqrt a * (b + Real.sqrt a * Real.sqrt c * 2) * (1/2)) *
        (a*c - (b*b)*(1/4)) * (1/2)) = 0
  rw [harg, show c + b*0 + a*(0*0) = c by ring]
  ring

/-- In the non-degenerate branch the leading coefficient is positive. -/
lemma calcBelow_apos {k2 k4 : ℝ} (h : eps < |k2| ∨ eps < |k4|) :
    0 < (k2*k2)*4 + (k4*k4)*4 := by
  rcases h with h | h
  · have hne : k2 ≠ 0 := by
      intro h0
      rw [h0, abs_zero] at h
      norm_num [eps] at h
    nlinarith [mul_self_pos.2 hne, mul_self_nonneg k4]
  · have hne : k4 ≠ 0 := by
      intro h0
      rw [h0, abs_zero] at h
      norm_num [eps] at h
    nlinarith [mul_self_pos.2 hne, mul_self_nonneg k2]

/-- The below-ramp distance is monotone in `t` on `t >= 0` in every branch. -/
lemma calcBelow_mono (k2 k4 vxi vyi : ℝ) {t1 t2 : ℝ} (h0 : 0 ≤ t1)
    (h12 : t1 ≤ t2) :
    calc_trans_distance_t_below_Tramp k2 k4 vxi vyi t1 ≤
      calc_trans_distance_t_below_Tramp k2 k4 vxi vyi t2 := by
  simp only [calc_trans_distance_t_below_Tramp]
  split_ifs with h1 h2
  · have ht : t1*t1 ≤ t2*t2 := mul_self_le_mul_self h0 h12
    nlinarith [Real.sqrt_nonneg ((k2*k2)*4 + (k4*k4)*4)]
  · have ha := calcBelow_apos h1
    have hDnn : 0 ≤ ((k2*k2)*4 + (k4*k4)*4)*(vxi*vxi + vyi*vyi) -
        (k2*vxi*4 + k4*vyi*4)*(k2*vxi*4 + k4*vyi*4)*(1/4) := by
      nlinarith [sq_nonneg (k2*vyi - k4*vxi)]
    rcases lt_or_eq_of_le hDnn with hpos | heq
    · exact (calc_abc_strictMono ha hpos).monotone h12
    · exact (calc_abc_strictMono_disc0 ha heq.symm).monotone h12
  · exact mul_le_mul_of_nonneg_left h12 (Real.sqrt_nonneg _)

lemma calcBelow_zero (k2 k4 vxi vyi : ℝ) :
    calc_trans_distance_t_below_Tramp k2 k4 vxi vyi 0 = 0 := by
  simp only [calc_trans_distance_t_below_Tramp]
  split_ifs with h1 h2
  · ring
  · exact calc_abc_zero (calcBelow_apos h1)
  · ring

lemma calcBelow_nonneg (k2 k4 vxi vyi : ℝ) {t : ℝ} (h0 : 0 ≤ t) :
    0 ≤ calc_trans_distance_t_below_Tramp k2 k4 vxi vyi t := by
  rw [← calcBelow_zero k2 k4 vxi vyi]
  exact calcBelow_mono k2 k4 vxi vyi le_rfl h0

/-- Specification of the running-minimum direction scan: a `none` result means
every scanned direction was rejected; a `some (k, m)` result is a scanned
candidate achieving the minimum distance, with strict improvement over every
earlier index (first minimum wins ties). -/
lemma scanBestAux_spec (P : HoloPTG) (x y : ℝ) : ∀ n : ℕ,
    (scanBestAux P x y n = none → ∀ j, j < n → candDist P x y j = none) ∧
    (∀ k m, scanBestAux P x y n = some (k, m) →
      k < n ∧ candDist P x y k = some m ∧
      (∀ j mj, j < n → candDist P x y j = some mj → m ≤ mj) ∧
      (∀ j mj, j < k → candDist P x y j = some mj → m < mj)) := by
  intro n
  induction n with
  | zero =>
    constructor
    · intro _ j hj
      exact absurd hj (Nat.not_lt_zero j)
    · intro k m h
      simp [scanBestAux] at h
  | succ n ih =>
    obtain ⟨ih1, ih2⟩ := ih
    constructor
    · intro h j hj
      cases hc : candDist P x y n with
      | none =>
        have haux : scanBestAux P x y n = none := by
          rw [scanBestAux, hc] at h
          cases haux : scanBestAux P x y n with
          | none => rfl
          | some b => rw [haux] at h; exact Option.noConfusion h
        rcases Nat.lt_succ_iff_lt_or_eq.1 hj with hj' | rfl
        · exact ih1 haux j hj'
        · exact hc
      | some dm =>
        exfalso
        rw [scanBestAux, hc] at h
        cases haux : scanBestAux P x y n with
        | none => rw [haux] at h; exact Option.noConfusion h
        | some best =>
          rw [haux] at h
          dsimp only at h
          by_cases hlt : dm < best.2
          · rw [if_pos hlt] at h; exact Option.noConfusion h
          · rw [if_neg hlt] at h; exact Option.noConfusion h
    · intro k m h
      cases hc : candDist P x y n with
      | none =>
        have h' : scanBestAux P x y n = some (k, m) := by
          rw [scanBestAux, hc] at h
          exact h
        obtain ⟨hk, hck, hmin, hstrict⟩ := ih2 k m h'
        refine ⟨hk.trans (Nat.lt_succ_self n), hck, ?_, hstrict⟩
        intro j mj hj hcj
        rcases Nat.lt_succ_iff_lt_or_eq.1 hj with hj' | rfl
        · exact hmin j mj hj' hcj
        · rw [hc] at hcj; exact Option.noConfusion hcj
      | some dm =>
        rw [scanBestAux, hc] at h
        cases haux : scanBestAux P x y n with
        | none =>
          rw [haux] at h
          have hkm : n = k ∧ dm = m := by
            have := Option.some.inj h
            exact ⟨congrArg Prod.fst this, congrArg Prod.snd this⟩
          obtain ⟨rfl, rfl⟩ := hkm
          refine ⟨Nat.lt_succ_self n, hc, ?_, ?_⟩
          · intro j mj hj hcj
            rcases Nat.lt_succ_iff_lt_or_eq.1 hj with hj' | rfl
            · rw [ih1 haux j hj'] at hcj; exact Option.noConfusion hcj
            · rw [hc] at hcj; exact le_of_eq (Option.some.inj hcj)
          · intro j mj hj hcj
            rw [ih1 haux j hj] at hcj
            exact Option.noConfusion hcj
        | some best =>
          rw [haux] at h
          dsimp only at h
          obtain ⟨hkb, hcb, hminb, hstrictb⟩ := ih2 best.1 best.2 (by rw [haux])
          by_cases hlt : dm < best.2
          · rw [if_pos hlt] at h
            have hkm : n = k ∧ dm = m := by
              have := Option.some.inj h
              exact ⟨congrArg Prod.fst this, congrArg Prod.snd this⟩
            obtain ⟨rfl, rfl⟩ := hkm
            refine ⟨Nat.lt_succ_self n, hc, ?_, ?_⟩
            · intro j mj hj hcj
              rcases Nat.lt_succ_iff_lt_or_eq.1 hj with hj' | rfl
              · exact le_of_lt (lt_of_lt_of_le hlt (hminb j mj hj' hcj))
              · rw [hc] at hcj; exact le_of_eq (Option.some.inj hcj)
            · intro j mj hj hcj
              exact lt_of_lt_of_le hlt (hminb j mj hj hcj)
          · rw [if_neg hlt] at h
            have hkm : best.1 = k ∧ best.2 = m := by
              have := Option.some.inj h
              exact ⟨congrArg Prod.fst this, congrArg Prod.snd this⟩
            obtain ⟨hk1, hk2⟩ := hkm
            subst hk1; subst hk2
            refine ⟨hkb.trans (Nat.lt_succ_self n), hcb, ?_, hstrictb⟩
            intro j mj hj hcj
            rcases Nat.lt_succ_iff_lt_or_eq.1 hj with hj' | rfl
            · exact hminb j mj hj' hcj
            · rw [hc] at hcj
              rw [← Option.some.inj hcj]
              exact not_lt.1 hlt

/-- The distance formula is nonnegative at nonnegative times. -/
lemma getPathDist_t_nonneg (P : HoloPTG) (k : ℕ) (hT : 0 ≤ P.T_ramp)
    (hV : 0 ≤ P.V_MAX) {t : ℝ} (h0 : 0 ≤ t) : 0 ≤ getPathDist_t P k t := by
  simp only [getPathDist_t]
  split_ifs with hc
  · exact calcBelow_nonneg _ _ _ _ h0
  · have h1 : 0 ≤ (t - P.T_ramp) * P.V_MAX :=
      mul_nonneg (by linarith [not_lt.1 hc]) hV
    have h2 := calcBelow_nonneg (pathK2 P k) (pathK4 P k) P.curVelLocal.vx
      P.curVelLocal.vy hT
    linarith

/-- A scan candidate is the distance formula at some nonnegative time. -/
lemma candDist_some (P : HoloPTG) (x y : ℝ) (k : ℕ) {m : ℝ}
    (h : candDist P x y k = some m) :
    ∃ t : ℝ, 0 ≤ t ∧ m = getPathDist_t P k t := by
  unfold candDist at h
  cases hct : candT P x y k with
  | none => rw [hct] at h; exact Option.noConfusion h
  | some t =>
    rw [hct] at h
    dsimp only at h
    split_ifs at h with h0
    · exact ⟨t, h0, (Option.some.inj h).symm⟩

lemma candDist_nonneg (P : HoloPTG) (x y : ℝ) (k : ℕ) (hT : 0 ≤ P.T_ramp)
    (hV : 0 ≤ P.V_MAX) {m : ℝ} (h : candDist P x y k = some m) : 0 ≤ m := by
  obtain ⟨t, h0, rfl⟩ := candDist_some P x y k h
  exact getPathDist_t_nonneg P k hT hV h0

/-- Characterization of a successful `inverseMap_WS2TP` result: the returned
direction is a scanned candidate whose distance is minimal (strictly better
than every earlier candidate), and `d` is that distance over `refDistance`. -/
lemma inverseMap_sol_spec (P : HoloPTG) (x y : ℝ) (k : ℕ) (d : ℝ)
    (hres : inverseMap_WS2TP P x y = Except.ok (some (k, d))) :
    ∃ m : ℝ, candDist P x y k = some m ∧ d = m / P.refDistance ∧
      k < P.m_alphaValuesCount ∧
      (∀ j mj, j < P.m_alphaValuesCount → candDist P x y j = some mj → m ≤ mj) ∧
      (∀ j mj, j < k → candDist P x y j = some mj → m < mj) := by
  unfold inverseMap_WS2TP at hres
  split_ifs at hres with hxy
  · cases hsb : scanBest P x y with
    | none =>
      rw [hsb] at hres
      exact Option.noConfusion (Except.ok.inj hres)
    | some b =>
      rw [hsb] at hres
      simp only [Option.map_some'] at hres
      have hb := Option.some.inj (Except.ok.inj hres)
      have hb1 : b.1 = k := congrArg Prod.fst hb
      have hb2 : b.2 / P.refDistance = d := congrArg Prod.snd hb
      obtain ⟨hk, hc, hmin, hstrict⟩ :=
        (scanBestAux_spec P x y P.m_alphaValuesCount).2 b.1 b.2
          (show scanBestAux P x y P.m_alphaValuesCount = some (b.1, b.2) from hsb)
      rw [hb1] at hc hstrict
      exact ⟨b.2, hc, hb2.symm, hb1 ▸ hk, hmin, hstrict⟩

/-! ## Helper lemmas and evaluations on the concrete configurations -/

/-- At the end-of-ramp time, the travel distance of `cfgCE2` direction 0 is
`1/2` (the `b=c=0` regime applies, `sqrt(a)*t^2/2` with `a = 1`). -/
lemma dist_trans_T_ramp_cfgCE2 : dist_trans_T_ramp cfgCE2 0 = 1/2 := by
  have habs : |(1:ℝ)/2| = 1/2 := abs_of_pos (by norm_num)
  unfold dist_trans_T_ramp calc_trans_distance_t_below_Tramp pathK2 pathK4 pathVxf pathVyf
    cfgCE2 eps
  norm_num [Real.cos_zero, Real.sin_zero, Real.sqrt_one, habs]

lemma sqrt_four : Real.sqrt (4:ℝ) = 2 := by
  rw [show (4:ℝ) = 2^2 by norm_num, Real.sqrt_sq (by norm_num : (0:ℝ) ≤ 2)]

lemma eps_distance_cfgCE2_pos : 0 < eps_distance cfgCE2 2 0 := by
  simp only [eps_distance, cfgCE2]
  have h4 : Real.sqrt ((2:ℝ)*2 + 0*0) = 2 := by
    rw [show ((2:ℝ)*2 + 0*0) = 4 by norm_num]
    exact sqrt_four
  rw [h4]
  positivity

lemma pathVxf_cfgCE2 : pathVxf cfgCE2 0 = 1 := by
  simp [pathVxf, cfgCE2, Real.cos_zero]

lemma pathVyf_cfgCE2 : pathVyf cfgCE2 0 = 0 := by
  simp [pathVyf, cfgCE2, Real.sin_zero]

lemma axisX_cfgCE2 :
    axisSolveBelow 1 0 1 2 (eps_distance cfgCE2 2 0) = some (false, -1) := by
  unfold axisSolveBelow
  norm_num [eps, sqrt_four]

lemma axisY_cfgCE2 :
    axisSolveBelow 1 0 0 0 (eps_distance cfgCE2 2 0) = some (true, 0) := by
  unfold axisSolveBelow
  norm_num [eps, eps_distance_cfgCE2_pos]

lemma axisAboveX_cfgCE2 :
    axisSolveAbove 1 0 1 2 (eps_distance cfgCE2 2 0) (false, -1) = (false, 3/2) := by
  unfold axisSolveAbove
  norm_num [eps]

lemma axisAboveY_cfgCE2 :
    axisSolveAbove 1 0 0 0 (eps_distance cfgCE2 2 0) (true, 0) = (true, 0) := by
  unfold axisSolveAbove
  norm_num [eps, eps_distance_cfgCE2_pos]

/-- The single scanned direction of `cfgCE2` at the target `(2,0)` reconciles
to the above-ramp time `t = 3/2`. -/
lemma candT_cfgCE2 : candT cfgCE2 2 0 0 = some (3/2) := by
  unfold candT
  rw [show cfgCE2.T_ramp = 1 from rfl, show cfgCE2.curVelLocal.vx = 0 from rfl,
    show cfgCE2.curVelLocal.vy = 0 from rfl, pathVxf_cfgCE2, pathVyf_cfgCE2]
  dsimp only
  rw [axisX_cfgCE2, axisY_cfgCE2]
  dsimp only
  norm_num [axisAboveX_cfgCE2, axisAboveY_cfgCE2]

/-- Candidate distance of the single direction of `cfgCE2` at `(2,0)`:
coasting `1/2` beyond the ramp plus `1/2` during the ramp. -/
lemma candDist_cfgCE2 : candDist cfgCE2 2 0 0 = some 1 := by
  unfold candDist
  rw [candT_cfgCE2]
  dsimp only
  rw [if_pos (by norm_num : (0:ℝ) ≤ 3/2)]
  congr 1
  simp only [getPathDist_t]
  rw [if_neg (by norm_num [cfgCE2] : ¬(3/2 : ℝ) < cfgCE2.T_ramp)]
  have h := dist_trans_T_ramp_cfgCE2
  unfold dist_trans_T_ramp at h
  rw [h]
  norm_num [cfgCE2]

lemma scanBest_cfgCE2 : scanBest cfgCE2 2 0 = some (0, 1) := by
  unfold scanBest
  rw [show cfgCE2.m_alphaValuesCount = 1 from rfl]
  rw [scanBestAux, candDist_cfgCE2, scanBestAux]

/-- Full inverse-map evaluation on `cfgCE2` at `(2,0)`: the winning direction
is 0 with normalized distance `d = 1/(1/10) = 10`. -/
lemma inverseMap_cfgCE2 : inverseMap_WS2TP cfgCE2 2 0 = Except.ok (some (0, 10)) := by
  unfold inverseMap_WS2TP
  rw [if_pos (Or.inl (by norm_num : (2:ℝ) ≠ 0))]
  rw [scanBest_cfgCE2]
  simp only [Option.map_some']
  norm_num [cfgCE2]

/-! ## Claim theorems -/

/-- C10: `updateCurrentRobotVel` modifies only the stored current velocity:
`T_ramp`, `V_MAX`, `W_MAX` and `turningRadiusReference` are unchanged and the
stored velocity equals the argument. -/
theorem updateCurrentRobotVel_frame (P : HoloPTG) (v : TTwist2D) :
    (updateCurrentRobotVel P v).T_ramp = P.T_ramp ∧
    (updateCurrentRobotVel P v).V_MAX = P.V_MAX ∧
    (updateCurrentRobotVel P v).W_MAX = P.W_MAX ∧
    (updateCurrentRobotVel P v).turningRadiusReference = P.turningRadiusReference ∧
    (updateCurrentRobotVel P v).curVelLocal = v :=
  ⟨rfl, rfl, rfl, rfl, rfl⟩

/-- C8: for the input point `(0,0)` the inverse mapper never returns a
solution: the entry precondition `ASSERT_(x!=0||y!=0)` fires (modelled as the
error outcome), so no `(k, d)` is ever produced. -/
theorem inverseMap_WS2TP_origin (P : HoloPTG) :
    inverseMap_WS2TP P 0 0 = Except.error () ∧
    ∀ k : ℕ, ∀ d : ℝ, inverseMap_WS2TP P 0 0 ≠ Except.ok (some (k, d)) := by
  have h : inverseMap_WS2TP P 0 0 = Except.error () := by
    unfold inverseMap_WS2TP
    rw [if_neg]
    push_neg
    exact ⟨rfl, rfl⟩
  exact ⟨h, fun k d hc => by rw [h] at hc; exact Except.noConfusion hc⟩

/-- C9: the feasibility check `PTG_IsIntoDomain` answers true exactly when
`inverseMap_WS2TP` finds a solution for the same point (and it propagates the
assertion failure unchanged). -/
theorem PTG_IsIntoDomain_iff_inverseMap (P : HoloPTG) (x y : ℝ) :
    PTG_IsIntoDomain P x y = Except.ok true ↔
    ∃ k : ℕ, ∃ d : ℝ, inverseMap_WS2TP P x y = Except.ok (some (k, d)) := by
  unfold PTG_IsIntoDomain
  cases h : inverseMap_WS2TP P x y with
  | error e => simp [Except.map]
  | ok r =>
    cases r with
    | none => simp [Except.map]
    | some p =>
      simp only [Except.map, Option.isSome_some]
      constructor
      · intro _
        exact ⟨p.1, p.2, rfl⟩
      · intro _
        trivial

/-- C2 (amended): the position-match tolerance is
`2.1*(2*pi/directionCount)*|(x,y)|` (not `2*...` as the spec claims) and the
time-mismatch tolerance is `2*(2*pi/directionCount)*|(x,y)|/V_MAX` (not double
the position tolerance). -/
theorem inverseMap_tolerances (P : HoloPTG) (x y : ℝ) :
    eps_distance P x y =
      2.1 * ((2*Real.pi/(P.m_alphaValuesCount : ℝ)) * Real.sqrt (x*x + y*y)) ∧
    TIME_MISMATCH_TOLERANCE P x y =
      2 * ((2*Real.pi/(P.m_alphaValuesCount : ℝ)) * Real.sqrt (x*x + y*y)) / P.V_MAX :=
  ⟨rfl, by norm_num [TIME_MISMATCH_TOLERANCE]⟩

/-- C2 counterexample: at the target `(3,4)` with one direction the actual
position tolerance is `21*pi`, while `2*(2*pi/directionCount)*|(x,y)| = 20*pi`,
and the time tolerance `20*pi` is not double the position tolerance. -/
theorem inverseMap_tolerances_counterexample :
    eps_distance cfgCE2 3 4 ≠
      2 * ((2*Real.pi/(cfgCE2.m_alphaValuesCount : ℝ)) * Real.sqrt (3*3 + 4*4)) ∧
    TIME_MISMATCH_TOLERANCE cfgCE2 3 4 ≠ 2 * eps_distance cfgCE2 3 4 := by
  have h5 : Real.sqrt (25 : ℝ) = 5 := by
    rw [show (25 : ℝ) = 5^2 by norm_num, Real.sqrt_sq (by norm_num : (0:ℝ) ≤ 5)]
  unfold eps_distance TIME_MISMATCH_TOLERANCE cfgCE2
  norm_num [h5]
  constructor
  · intro hc
    nlinarith [Real.pi_pos]
  · intro hc
    nlinarith [Real.pi_pos]

/-- C5: the heading of `getPathPose` never exceeds `|angleOf(k)|` in
magnitude, equals `t*dir/T_rot` (with `T_rot = |dir|/W_MAX`) before `T_rot`,
equals `dir` from `T_rot` on, and approaches `dir` monotonically without
overshoot. -/
theorem getPathPose_heading (P : HoloPTG) (k : ℕ) (hW : 0 < P.W_MAX) :
    (∀ step : ℕ, |(getPathPose P k step).2.2| ≤ |P.index2alpha k|) ∧
    (∀ t : ℝ, 0 ≤ t → |(getPathPose_t P k t).2.2| ≤ |P.index2alpha k|) ∧
    (∀ t : ℝ, t < |P.index2alpha k| / P.W_MAX →
      (getPathPose_t P k t).2.2 =
        t * P.index2alpha k / (|P.index2alpha k| / P.W_MAX)) ∧
    (∀ t : ℝ, |P.index2alpha k| / P.W_MAX ≤ t →
      (getPathPose_t P k t).2.2 = P.index2alpha k) ∧
    (∀ t1 t2 : ℝ, 0 ≤ t1 → t1 ≤ t2 →
      |P.index2alpha k - (getPathPose_t P k t2).2.2| ≤
        |P.index2alpha k - (getPathPose_t P k t1).2.2|) := by
  set dir := P.index2alpha k with hdir
  set Trot := |dir| / P.W_MAX with hTrot
  have hphi : ∀ t : ℝ, (getPathPose_t P k t).2.2 =
      if t < Trot then t*dir/Trot else dir := fun t => rfl
  have hTrot0 : 0 ≤ Trot := div_nonneg (abs_nonneg _) hW.le
  have habs : ∀ t : ℝ, 0 ≤ t → |(getPathPose_t P k t).2.2| ≤ |dir| := by
    intro t ht
    rw [hphi]
    by_cases h : t < Trot
    · rw [if_pos h]
      have hTpos : 0 < Trot := lt_of_le_of_lt ht h
      rw [abs_div, abs_mul, abs_of_nonneg ht, abs_of_pos hTpos]
      rw [div_le_iff₀ hTpos]
      calc t * |dir| ≤ Trot * |dir| :=
            mul_le_mul_of_nonneg_right h.le (abs_nonneg _)
        _ = |dir| * Trot := mul_comm _ _
    · rw [if_neg h]
  have hdist : ∀ t : ℝ, 0 ≤ t →
      |dir - (getPathPose_t P k t).2.2| =
        if t < Trot then |dir| * (Trot - t) / Trot else 0 := by
    intro t ht
    rw [hphi]
    by_cases h : t < Trot
    · rw [if_pos h, if_pos h]
      have hTpos : 0 < Trot := lt_of_le_of_lt ht h
      have hrw : dir - t*dir/Trot = dir*(Trot - t)/Trot := by
        field_simp
        ring
      rw [hrw, abs_div, abs_mul, abs_of_pos hTpos,
        abs_of_nonneg (sub_nonneg.2 h.le)]
    · rw [if_neg h, if_neg h, sub_self, abs_zero]
  refine ⟨?_, habs, fun t h => by rw [hphi, if_pos h],
    fun t h => by rw [hphi, if_neg (not_lt.2 h)], ?_⟩
  · intro step
    exact habs _ (mul_nonneg (by norm_num [PATH_TIME_STEP]) (Nat.cast_nonneg _))
  · intro t1 t2 h1 h12
    rw [hdist t1 h1, hdist t2 (h1.trans h12)]
    by_cases h2 : t2 < Trot
    · have h1' : t1 < Trot := lt_of_le_of_lt h12 h2
      rw [if_pos h2, if_pos h1']
      have hTpos : 0 < Trot := lt_of_le_of_lt h1 h1'
      gcongr
    · rw [if_neg h2]
      by_cases h1' : t1 < Trot
      · rw [if_pos h1']
        have hTpos : 0 < Trot := lt_of_le_of_lt h1 h1'
        exact div_nonneg (mul_nonneg (abs_nonneg _) (sub_nonneg.2 h1'.le)) hTpos.le
      · rw [if_neg h1']

/-- C5 witness: the heading bound instantiated on the concrete
configuration `cfgCE2` (direction angle 0). -/
theorem getPathPose_heading_witness :
    (0:ℝ) < cfgCE2.W_MAX ∧
    ∀ step : ℕ, |(getPathPose cfgCE2 0 step).2.2| ≤ |cfgCE2.index2alpha 0| :=
  ⟨by norm_num [cfgCE2], (getPathPose_heading cfgCE2 0 (by norm_num [cfgCE2])).1⟩

/-- C6 (amended): for `dist >= distAtRamp` the inverter always succeeds with
the closed-form time `t = T_ramp + (dist - distAtRamp)/V_MAX`, and the
distance formula evaluated at that time recovers `dist` exactly; the returned
step is `round(t / PATH_TIME_STEP)` reduced modulo `2^16` (the `uint16_t`
out-parameter narrows the rounded value), which agrees with
`round(t / PATH_TIME_STEP)` exactly when that value is below `2^16`. -/
theorem getPathStepForDist_coast (P : HoloPTG) (k : ℕ) (dist : ℝ)
    (hT : 0 < P.T_ramp) (hV : 0 < P.V_MAX)
    (h : dist ≥ dist_trans_T_ramp P k) :
    getPathStepForDist_t P k dist =
      some (P.T_ramp + (dist - dist_trans_T_ramp P k)/P.V_MAX) ∧
    getPathStepForDist P k dist =
      some (round ((P.T_ramp + (dist - dist_trans_T_ramp P k)/P.V_MAX) /
        PATH_TIME_STEP) % 2^16) ∧
    (round ((P.T_ramp + (dist - dist_trans_T_ramp P k)/P.V_MAX) /
        PATH_TIME_STEP) < 2^16 →
      getPathStepForDist P k dist =
        some (round ((P.T_ramp + (dist - dist_trans_T_ramp P k)/P.V_MAX) /
          PATH_TIME_STEP))) ∧
    getPathDist_t P k (P.T_ramp + (dist - dist_trans_T_ramp P k)/P.V_MAX) =
      dist := by
  have hq : 0 ≤ (dist - dist_trans_T_ramp P k)/P.V_MAX :=
    div_nonneg (sub_nonneg.2 h) hV.le
  have htT : P.T_ramp ≤ P.T_ramp + (dist - dist_trans_T_ramp P k)/P.V_MAX := by
    linarith
  have ht0 : 0 ≤ P.T_ramp + (dist - dist_trans_T_ramp P k)/P.V_MAX := by
    linarith
  have h1 : getPathStepForDist_t P k dist =
      some (P.T_ramp + (dist - dist_trans_T_ramp P k)/P.V_MAX) := by
    unfold getPathStepForDist_t
    rw [if_pos h]
    simp [ht0]
  have hstep : getPathStepForDist P k dist =
      some (round ((P.T_ramp + (dist - dist_trans_T_ramp P k)/P.V_MAX) /
        PATH_TIME_STEP) % 2^16) := by
    unfold getPathStepForDist
    rw [h1]
    rfl
  have hrnn : 0 ≤ round ((P.T_ramp + (dist - dist_trans_T_ramp P k)/P.V_MAX) /
      PATH_TIME_STEP) := by
    rw [round_eq]
    apply Int.floor_nonneg.2
    have hdiv : 0 ≤ (P.T_ramp + (dist - dist_trans_T_ramp P k)/P.V_MAX) /
        PATH_TIME_STEP :=
      div_nonneg ht0 (by norm_num [PATH_TIME_STEP])
    linarith
  refine ⟨h1, hstep, ?_, ?_⟩
  · intro hlt
    rw [hstep, Int.emod_eq_of_lt hrnn hlt]
  · unfold getPathDist_t
    rw [if_neg (not_lt.2 htT)]
    rw [show P.T_ramp + (dist - dist_trans_T_ramp P k)/P.V_MAX - P.T_ramp =
      (dist - dist_trans_T_ramp P k)/P.V_MAX by ring]
    rw [div_mul_cancel₀ _ (ne_of_gt hV)]
    unfold dist_trans_T_ramp
    ring

/-- C6 counterexample: on `cfgCE2` the coasting target `dist = 999.5` solves
to `t = 1000` s; `round(t/PATH_TIME_STEP) = 100000 ≥ 2^16`, and the function
returns the narrowed step `100000 mod 2^16 = 34464`, not the step obtained by
rounding `t/quantum`. -/
theorem getPathStepForDist_step_wraps :
    (1999/2 : ℝ) ≥ dist_trans_T_ramp cfgCE2 0 ∧
    getPathStepForDist_t cfgCE2 0 (1999/2) = some 1000 ∧
    round ((1000:ℝ) / PATH_TIME_STEP) = 100000 ∧
    getPathStepForDist cfgCE2 0 (1999/2) = some 34464 ∧
    (34464 : ℤ) ≠ round ((1000:ℝ) / PATH_TIME_STEP) := by
  have hge : (1999/2 : ℝ) ≥ dist_trans_T_ramp cfgCE2 0 := by
    rw [dist_trans_T_ramp_cfgCE2]
    norm_num
  have hexpr : cfgCE2.T_ramp + (1999/2 - dist_trans_T_ramp cfgCE2 0)/cfgCE2.V_MAX
      = (1000 : ℝ) := by
    rw [dist_trans_T_ramp_cfgCE2]
    norm_num [cfgCE2]
  have h1 : getPathStepForDist_t cfgCE2 0 (1999/2) = some 1000 := by
    unfold getPathStepForDist_t
    rw [if_pos hge, hexpr]
    dsimp only
    rw [if_pos (by norm_num : (0:ℝ) ≤ 1000)]
  have hr : round ((1000:ℝ) / PATH_TIME_STEP) = 100000 := by
    rw [show (1000:ℝ)/PATH_TIME_STEP = 100000 by rw [PATH_TIME_STEP]; norm_num,
      show (100000:ℝ) = ((100000:ℤ):ℝ) by norm_num, round_intCast]
  refine ⟨hge, h1, hr, ?_, by rw [hr]; norm_num⟩
  unfold getPathStepForDist
  rw [h1]
  simp only [Option.map_some']
  rw [hr]
  norm_num

/-- C6 witness: on `cfgCE2`, direction 0, `dist = 3/2 >= distAtRamp = 1/2`,
the inverter returns `t = 2` and (unwrapped, since `200 < 2^16`) step 200. -/
theorem getPathStepForDist_coast_witness :
    (0:ℝ) < cfgCE2.T_ramp ∧ (0:ℝ) < cfgCE2.V_MAX ∧
    (3/2 : ℝ) ≥ dist_trans_T_ramp cfgCE2 0 ∧
    getPathStepForDist_t cfgCE2 0 (3/2) = some 2 ∧
    getPathStepForDist cfgCE2 0 (3/2) = some 200 := by
  have hT : (0:ℝ) < cfgCE2.T_ramp := by norm_num [cfgCE2]
  have hV : (0:ℝ) < cfgCE2.V_MAX := by norm_num [cfgCE2]
  have hge : (3/2 : ℝ) ≥ dist_trans_T_ramp cfgCE2 0 := by
    rw [dist_trans_T_ramp_cfgCE2]
    norm_num
  obtain ⟨h1, h2, h3, h4⟩ := getPathStepForDist_coast cfgCE2 0 (3/2) hT hV hge
  have hexpr : cfgCE2.T_ramp + (3/2 - dist_trans_T_ramp cfgCE2 0)/cfgCE2.V_MAX
      = (2 : ℝ) := by
    rw [dist_trans_T_ramp_cfgCE2]
    norm_num [cfgCE2]
  have hround : round ((cfgCE2.T_ramp +
      (3/2 - dist_trans_T_ramp cfgCE2 0)/cfgCE2.V_MAX) / PATH_TIME_STEP)
      = 200 := by
    rw [hexpr, show (2:ℝ)/PATH_TIME_STEP = 200 by rw [PATH_TIME_STEP]; norm_num,
      show (200:ℝ) = ((200:ℤ):ℝ) by norm_num, round_intCast]
  refine ⟨hT, hV, hge, ?_, ?_⟩
  · rw [h1, hexpr]
  · rw [h3 (by rw [hround]; norm_num), hround]

/-- C3: for every direction, the travelled distance is non-decreasing in the
step, and past the ramp the distance grows at exactly `V_MAX` per unit time. -/
theorem getPathDist_monotone (P : HoloPTG) (k : ℕ) (hT : 0 < P.T_ramp)
    (hV : 0 < P.V_MAX) :
    (∀ s1 s2 : ℕ, s1 ≤ s2 → getPathDist P k s1 ≤ getPathDist P k s2) ∧
    (∀ t1 t2 : ℝ, P.T_ramp ≤ t1 → t1 ≤ t2 →
      getPathDist_t P k t2 - getPathDist_t P k t1 = P.V_MAX * (t2 - t1)) := by
  have hmono : ∀ t1 t2 : ℝ, 0 ≤ t1 → t1 ≤ t2 →
      getPathDist_t P k t1 ≤ getPathDist_t P k t2 := by
    intro t1 t2 h0 h12
    simp only [getPathDist_t]
    split_ifs with c1 c2
    · exact calcBelow_mono _ _ _ _ h0 h12
    · have hle := calcBelow_mono (pathK2 P k) (pathK4 P k) P.curVelLocal.vx
        P.curVelLocal.vy h0 c1.le
      have hnn : 0 ≤ (t2 - P.T_ramp) * P.V_MAX :=
        mul_nonneg (by linarith [not_lt.1 c2]) hV.le
      linarith
    · linarith [not_lt.1 c1]
    · have := mul_le_mul_of_nonneg_right (sub_le_sub_right h12 P.T_ramp) hV.le
      linarith
  refine ⟨?_, ?_⟩
  · intro s1 s2 h
    unfold getPathDist
    apply hmono
    · exact mul_nonneg (by norm_num [PATH_TIME_STEP]) (Nat.cast_nonneg _)
    · exact mul_le_mul_of_nonneg_left (Nat.cast_le.2 h)
        (by norm_num [PATH_TIME_STEP])
  · intro t1 t2 ht1 h12
    simp only [getPathDist_t]
    rw [if_neg (not_lt.2 ht1), if_neg (not_lt.2 (ht1.trans h12))]
    ring

/-- C3 witness: monotone distance on the concrete configuration `cfgCE2`. -/
theorem getPathDist_monotone_witness :
    (0:ℝ) < cfgCE2.T_ramp ∧ (0:ℝ) < cfgCE2.V_MAX ∧
    ((∀ s1 s2 : ℕ, s1 ≤ s2 → getPathDist cfgCE2 0 s1 ≤ getPathDist cfgCE2 0 s2) ∧
     (∀ t1 t2 : ℝ, cfgCE2.T_ramp ≤ t1 → t1 ≤ t2 →
       getPathDist_t cfgCE2 0 t2 - getPathDist_t cfgCE2 0 t1 =
         cfgCE2.V_MAX * (t2 - t1))) :=
  ⟨by norm_num [cfgCE2], by norm_num [cfgCE2],
   getPathDist_monotone cfgCE2 0 (by norm_num [cfgCE2]) (by norm_num [cfgCE2])⟩

/-- C7: a returned direction index is a scanned candidate whose travelled
distance is minimal among all directions that produced a consistent
non-negative solution time, and it strictly beats every earlier index
(first minimum wins ties, iteration from `k = 0` upward). -/
theorem inverseMap_min_dist (P : HoloPTG) (x y : ℝ) (k : ℕ) (d : ℝ)
    (hres : inverseMap_WS2TP P x y = Except.ok (some (k, d))) :
    ∃ m : ℝ, candDist P x y k = some m ∧ k < P.m_alphaValuesCount ∧
      (∀ j mj, j < P.m_alphaValuesCount → candDist P x y j = some mj → m ≤ mj) ∧
      (∀ j mj, j < k → candDist P x y j = some mj → m < mj) := by
  obtain ⟨m, hc, _, hk, hmin, hstrict⟩ := inverseMap_sol_spec P x y k d hres
  exact ⟨m, hc, hk, hmin, hstrict⟩

/-- C7 witness: on `cfgCE2` at `(2,0)` the solution `(k,d) = (0,10)` comes
from the unique candidate distance 1. -/
theorem inverseMap_min_dist_witness :
    inverseMap_WS2TP cfgCE2 2 0 = Except.ok (some (0, 10)) ∧
    ∃ m : ℝ, candDist cfgCE2 2 0 0 = some m ∧ 0 < cfgCE2.m_alphaValuesCount ∧
      (∀ j mj, j < cfgCE2.m_alphaValuesCount → candDist cfgCE2 2 0 j = some mj →
        m ≤ mj) ∧
      (∀ j mj, j < 0 → candDist cfgCE2 2 0 j = some mj → m < mj) :=
  ⟨inverseMap_cfgCE2, inverseMap_min_dist cfgCE2 2 0 0 10 inverseMap_cfgCE2⟩

/-- C4 (amended): a returned normalized distance equals the minimal candidate
distance over all scanned directions divided by `refDistance`, and is
nonnegative — but it is not always `<= 1` (the code never clamps by
`refDistance`). -/
theorem inverseMap_normalized_dist (P : HoloPTG) (x y : ℝ) (k : ℕ) (d : ℝ)
    (hT : 0 < P.T_ramp) (hV : 0 < P.V_MAX) (hR : 0 < P.refDistance)
    (hres : inverseMap_WS2TP P x y = Except.ok (some (k, d))) :
    0 ≤ d ∧ ∃ m : ℝ, candDist P x y k = some m ∧ d = m / P.refDistance ∧
      (∀ j mj, j < P.m_alphaValuesCount → candDist P x y j = some mj → m ≤ mj) := by
  obtain ⟨m, hc, hd, _, hmin, _⟩ := inverseMap_sol_spec P x y k d hres
  have hm : 0 ≤ m := candDist_nonneg P x y k hT.le hV.le hc
  exact ⟨hd ▸ div_nonneg hm hR.le, m, hc, hd, hmin⟩

/-- C4 counterexample: on `cfgCE2` (one direction at angle 0, `V_MAX = 1`,
`T_ramp = 1`, zero current velocity, `refDistance = 1/10`) the target `(2,0)`
yields the solution `(k,d) = (0,10)` with `d = 10 > 1`, so the returned
normalized distance does not lie in `[0,1]`. -/
theorem inverseMap_d_not_in_unit :
    inverseMap_WS2TP cfgCE2 2 0 = Except.ok (some (0, 10)) ∧ ¬((10:ℝ) ≤ 1) :=
  ⟨inverseMap_cfgCE2, by norm_num⟩

/-- C4 witness: the amended normalization property instantiated on `cfgCE2`
at `(2,0)`. -/
theorem inverseMap_normalized_dist_witness :
    (0:ℝ) < cfgCE2.T_ramp ∧ (0:ℝ) < cfgCE2.V_MAX ∧ (0:ℝ) < cfgCE2.refDistance ∧
    (0 ≤ (10:ℝ) ∧ ∃ m : ℝ, candDist cfgCE2 2 0 0 = some m ∧
      (10:ℝ) = m / cfgCE2.refDistance ∧
      (∀ j mj, j < cfgCE2.m_alphaValuesCount → candDist cfgCE2 2 0 j = some mj →
        m ≤ mj)) :=
  ⟨by norm_num [cfgCE2], by norm_num [cfgCE2], by norm_num [cfgCE2],
   inverseMap_normalized_dist cfgCE2 2 0 0 10 (by norm_num [cfgCE2])
     (by norm_num [cfgCE2]) (by norm_num [cfgCE2]) inverseMap_cfgCE2⟩

end

end HoloBlend
